import Mathlib

/-!
Verification of the scEM_seq read-processing pipeline.

Shallow embedding of the core operations of the repository:

* `add_cb_umi_to_fastq.py` — whitelist filter / header encoder (`process_read1`),
  mate synchronizer (`process_read2`), summary writer (`write_cb_summary`);
* `split_bam_by_cb.py` — barcode router (`extract_cb_from_read_name`, main loop);
* `count_umi_from_bam_folder.py` — tag aggregator (`umi_count_bam`).

Python strings are modelled as `List Char`, Python dicts as insertion-ordered
association lists, the filesystem touched by the router as an association list
from path to the list of written chunks, and fallible operations (a raised
exception) as `Option`.  Definitions come first, then the lemmas and the
claim theorems.
-/

set_option maxHeartbeats 1000000

namespace ScEMseq

/-- Python strings are modelled as lists of characters. -/
abbrev Str := List Char

/-- Lookup in an association list; `alookup d k` models `d[k]` / `k in d`. -/
def alookup {α : Type} : List (Str × α) → Str → Option α
  | [], _ => none
  | (k', v) :: rest, k => if k' = k then some v else alookup rest k

/-- Insertion `dictInsert d k v` models `d[k] = v` on a Python dict: an existing key keeps
its position and its value is overwritten; a new key is appended at the end. -/
def dictInsert {α : Type} : List (Str × α) → Str → α → List (Str × α)
  | [], k, v => [(k, v)]
  | (k', v') :: rest, k, v =>
    if k' = k then (k, v) :: rest else (k', v') :: dictInsert rest k v

/-- Increment `dictIncr d k` models `d[k] = d.get(k, 0) + 1`. -/
def dictIncr : List (Str × Nat) → Str → List (Str × Nat)
  | [], k => [(k, 1)]
  | (k', n) :: rest, k =>
    if k' = k then (k', n + 1) :: rest else (k', n) :: dictIncr rest k

/-- Sum of the counts of a count table, `sum(d.values())`. -/
def sumCounts (d : List (Str × Nat)) : Nat := (d.map Prod.snd).sum

/-- Splitting `pySplit sep s` models Python `s.split(sep)` for a single-character
separator: the result is always non-empty, and splitting the empty string
yields `[[]]` (Python: `"".split("_") == [""]`). -/
def pySplit (sep : Char) : Str → List Str
  | [] => [[]]
  | c :: rest =>
    match pySplit sep rest with
    | [] => [[]]
    | p :: ps => if c = sep then [] :: p :: ps else (c :: p) :: ps

/-- Test `listStartsWith pat s`: does `s` start with `pat`? -/
def listStartsWith : Str → Str → Bool
  | [], _ => true
  | _ :: _, [] => false
  | p :: ps, c :: cs => p == c && listStartsWith ps cs

/-- Fueled scan for `str.replace`: replaces non-overlapping occurrences of
`pat` left-to-right.  Each step consumes at least one character, so fuel equal
to the length of the string (see `pyReplace`) never runs out. -/
def pyReplaceFuel (pat repl : Str) : Nat → Str → Str
  | 0, s => s
  | _ + 1, [] => []
  | fuel + 1, c :: rest =>
    if listStartsWith pat (c :: rest) then
      repl ++ pyReplaceFuel pat repl fuel (List.drop (pat.length - 1) rest)
    else
      c :: pyReplaceFuel pat repl fuel rest

/-- Replacement `pyReplace s pat repl` models Python `s.replace(pat, repl)` for a
non-empty pattern: every non-overlapping occurrence of `pat`, scanned left to
right, is replaced by `repl`. -/
def pyReplace (s pat repl : Str) : Str := pyReplaceFuel pat repl s.length s

/-- Decoding of one FASTQ quality character, as done by the Sanger-FASTQ
parser feeding `process_read1` / `process_read2`: character `c` maps to the
Phred score `ord(c) - 33`; characters outside the printable offset-33 range
(scores `0..93`) are a parse error (`none`). -/
def phredOfChar (c : Char) : Option Nat :=
  if 33 ≤ c.toNat ∧ c.toNat ≤ 126 then some (c.toNat - 33) else none

/-- Decode an ASCII quality string to numeric Phred scores (offset 33). -/
def decodeQual : Str → Option (List Nat)
  | [] => some []
  | c :: cs =>
    match phredOfChar c, decodeQual cs with
    | some q, some qs => some (q :: qs)
    | _, _ => none

/-- Encoding `"".join(chr(q + 33) for q in phred)` — the re-encoding used on both the
mate-1 (`process_read1`) and mate-2 (`process_read2`) output paths. -/
def encodeQual (qs : List Nat) : Str := qs.map (fun q => Char.ofNat (q + 33))

/-- A parsed FASTQ record as the loop body sees it: `record.id` (the first
whitespace-delimited token of the title line), `str(record.seq)`, and
`record.letter_annotations["phred_quality"]`. -/
structure FastqRec where
  id : Str
  seq : Str
  phred : List Nat
  deriving DecidableEq

/-- One record written to a FASTQ output file (header line, sequence line,
quality line; the separator line is the constant `+`). -/
structure OutRec where
  header : Str
  seq : Str
  qual : Str
  deriving DecidableEq

/-- The first-mate Illumina marker `" 1:N:0:"` that `process_read2` searches
for. -/
def marker1 : Str := (" 1:N:0:").toList

/-- The second-mate Illumina marker `" 2:N:0:"` substituted in. -/
def marker2 : Str := (" 2:N:0:").toList

/-- The encoded header built by `process_read1`:
the f-string `@<id>_<cb>_<umi> 1:N:0:<umi>`. -/
def mkHeader (id cb umi : Str) : Str :=
  '@' :: (id ++ '_' :: (cb ++ '_' :: (umi ++ marker1 ++ umi)))

/-- State threaded through the `process_read1` loop. -/
structure R1State where
  cbUmiDict : List (Str × Str)
  cbCount : List (Str × Nat)
  totalReads : Nat
  invalidCbReads : Nat
  out : List OutRec
  deriving DecidableEq

/-- One iteration of the `process_read1` loop body
(`src/add_cb_umi_to_fastq.py`, lines 115–142). -/
def read1Step (cbList : List Str) (cbLen umiLen : Nat) (s : R1State) (r : FastqRec) :
    R1State :=
  let s := { s with totalReads := s.totalReads + 1 }
  if r.seq.length < cbLen + umiLen then
    { s with invalidCbReads := s.invalidCbReads + 1 }
  else
    let cb := r.seq.take cbLen
    let umi := (r.seq.drop cbLen).take umiLen
    if cb ∈ cbList then
      let h := mkHeader r.id cb umi
      { s with
        out := s.out ++ [{ header := h, seq := r.seq, qual := encodeQual r.phred }]
        cbUmiDict := dictInsert s.cbUmiDict r.id h
        cbCount := dictIncr s.cbCount cb }
    else
      { s with invalidCbReads := s.invalidCbReads + 1 }

/-- Function `process_read1`: fold the loop body over the mate-1 record stream,
starting from empty dictionaries and zeroed counters. -/
def process_read1 (cbList : List Str) (cbLen umiLen : Nat) (rs : List FastqRec) :
    R1State :=
  rs.foldl (read1Step cbList cbLen umiLen) ⟨[], [], 0, 0, []⟩

/-- The acceptance test of the `process_read1` loop body: long enough to hold
CB + UMI, and the extracted CB is in the whitelist. -/
def read1Accepts (cbList : List Str) (cbLen umiLen : Nat) (r : FastqRec) : Bool :=
  !decide (r.seq.length < cbLen + umiLen) && decide (r.seq.take cbLen ∈ cbList)

/-- The header `process_read1` builds for a record (meaningful when the record
is accepted). -/
def read1Header (cbLen umiLen : Nat) (r : FastqRec) : Str :=
  mkHeader r.id (r.seq.take cbLen) ((r.seq.drop cbLen).take umiLen)

/-- One record written to the mate-2 output, remembering which read identity
produced it. -/
structure Out2Rec where
  id : Str
  header : Str
  seq : Str
  qual : Str
  deriving DecidableEq

/-- State threaded through the `process_read2` loop. -/
structure R2State where
  out : List Out2Rec
  missingR2 : Nat
  deriving DecidableEq

/-- One iteration of the `process_read2` loop body
(`src/add_cb_umi_to_fastq.py`, lines 163–176). -/
def read2Step (cbUmiDict : List (Str × Str)) (s : R2State) (r : FastqRec) : R2State :=
  match alookup cbUmiDict r.id with
  | none => { s with missingR2 := s.missingR2 + 1 }
  | some h1 =>
    { s with
      out := s.out ++
        [{ id := r.id, header := pyReplace h1 marker1 marker2,
           seq := r.seq, qual := encodeQual r.phred }] }

/-- Function `process_read2`: fold the loop body over the mate-2 record stream. -/
def process_read2 (cbUmiDict : List (Str × Str)) (rs : List FastqRec) : R2State :=
  rs.foldl (read2Step cbUmiDict) ⟨[], 0⟩

/-- Stable descending insertion by count:
`sorted(cb_count.items(), key=lambda x: x[1], reverse=True)`. -/
def insertDesc (x : Str × Nat) : List (Str × Nat) → List (Str × Nat)
  | [] => [x]
  | y :: ys => if y.2 < x.2 then x :: y :: ys else y :: insertDesc x ys

/-- Stable sort by descending count. -/
def sortDescByCount (d : List (Str × Nat)) : List (Str × Nat) :=
  d.foldr insertDesc []

/-- What `write_cb_summary` reports when it completes: the stderr summary
numbers and the sorted per-barcode table. -/
structure Summary where
  totalReads : Nat
  keptReads : Nat
  validRatio : ℚ
  invalidCbReads : Nat
  missingR2 : Nat
  cbTable : List (Str × Nat)

/-- Function `write_cb_summary` (`src/add_cb_umi_to_fastq.py`, lines 181–207).  The
f-string evaluates `kept_reads / total_reads` with no guard, so with
`total_reads == 0` Python raises `ZeroDivisionError` before anything is
written — modelled as `none`.  The numeric value of the (float) division is
modelled exactly as a rational. -/
def write_cb_summary (cbCount : List (Str × Nat))
    (totalReads invalidCbReads missingR2 : Nat) : Option Summary :=
  let keptReads := sumCounts cbCount
  if totalReads = 0 then
    none
  else
    some
      { totalReads := totalReads
        keptReads := keptReads
        validRatio := (keptReads : ℚ) / (totalReads : ℚ)
        invalidCbReads := invalidCbReads
        missingR2 := missingR2
        cbTable := sortDescByCount cbCount }

/-- An aligned record as the router's loop sees it: `read.query_name` and the
serialized line `read.to_string()`. -/
structure AlnRead where
  name : Str
  line : Str
  deriving DecidableEq

/-- Function `extract_cb_from_read_name` (`src/split_bam_by_cb.py`, lines 23–40):
split the read name on `_`; fewer than 4 fields means unroutable (`None`),
otherwise the CB is field 0. -/
def extract_cb_from_read_name (name : Str) : Option Str :=
  let parts := pySplit '_' name
  if parts.length < 4 then none else some (parts.headD [])

/-- The fixed output directory of the router. -/
def outputDir : Str := ("split_bam_files_sam/").toList

/-- The `.sam` extension. -/
def samExt : Str := (".sam").toList

/-- Path `os.path.join(output_dir, basename + "_" + cb + ".sam")`. -/
def outPath (basename cb : Str) : Str :=
  (outputDir ++ basename ++ ['_']) ++ (cb ++ samExt)

/-- Append mode: `open` with `"a"` followed by one write: appends a chunk to the file,
creating it when absent. -/
def appendFile (fs : List (Str × List Str)) (p : Str) (chunk : Str) :
    List (Str × List Str) :=
  match fs with
  | [] => [(p, [chunk])]
  | (p', c) :: rest =>
    if p' = p then (p', c ++ [chunk]) :: rest else (p', c) :: appendFile rest p chunk

/-- State threaded through the router's loop: the set of CBs whose file
already has a header, the filesystem (path ↦ list of written chunks), and the
number of `[WARN] Failed to parse CB` messages printed. -/
structure RouterState where
  writtenCbs : List Str
  files : List (Str × List Str)
  skipped : Nat
  deriving DecidableEq

/-- One iteration of the router's loop (`src/split_bam_by_cb.py`, lines
68–87): unroutable records are reported and skipped; the first occurrence of
a CB opens its file with `"w"` (truncating) and writes the header block then
the record; later occurrences append the record only. -/
def routerStep (headerText basename : Str) (s : RouterState) (r : AlnRead) :
    RouterState :=
  match extract_cb_from_read_name r.name with
  | none => { s with skipped := s.skipped + 1 }
  | some cb =>
    let path := outPath basename cb
    if cb ∈ s.writtenCbs then
      { s with files := appendFile s.files path r.line }
    else
      { writtenCbs := cb :: s.writtenCbs
        files := dictInsert s.files path [headerText, r.line]
        skipped := s.skipped }

/-- The router's whole pass over the record stream, starting from an empty
`written_cbs` set and a fresh output directory. -/
def routerRun (headerText basename : Str) (rs : List AlnRead) : RouterState :=
  rs.foldl (routerStep headerText basename) ⟨[], [], 0⟩

/-- The records of a stream that the router sends to partition `cb`. -/
def routedTo (cb : Str) (rs : List AlnRead) : List AlnRead :=
  rs.filter (fun r => decide (extract_cb_from_read_name r.name = some cb))

/-- The tag of a read name: `name_parts[-1] if name_parts else ""` where
`name_parts = read.query_name.split("_")`. -/
def tagOf (name : Str) : Str := (pySplit '_' name).getLastD []

/-- Table `tag_count` built by the loop of `umi_count_bam`
(`src/count_umi_from_bam_folder.py`, lines 67–77). -/
def tagCountOf (names : List Str) : List (Str × Nat) :=
  names.foldl (fun d n => dictIncr d (tagOf n)) []

/-- Function `umi_count_bam` (`src/count_umi_from_bam_folder.py`, lines 46–83): the
container is given by the query names of its records; returns
`(umi_count, reads_number, df)` — the number of distinct tags, the sum of the
per-tag counts (`int(df["count"].sum())`), and the detail table
(`list(tag_count.items())` as rows of the data frame). -/
def umi_count_bam (names : List Str) : Nat × Nat × List (Str × Nat) :=
  let d := tagCountOf names
  (d.length, sumCounts d, d)

/-- Predicate `noSpace s`: the string contains no space character. -/
abbrev noSpace (s : Str) : Prop := ∀ c ∈ s, c ≠ ' '

/-! Lemmas and claim theorems. -/

@[simp] theorem alookup_nil {α : Type} (k : Str) : alookup ([] : List (Str × α)) k = none := rfl

@[simp] theorem alookup_cons {α : Type} (k' : Str) (v : α) (rest : List (Str × α)) (k : Str) :
    alookup ((k', v) :: rest) k = if k' = k then some v else alookup rest k := rfl

theorem alookup_dictInsert_self {α : Type} (d : List (Str × α)) (k : Str) (v : α) :
    alookup (dictInsert d k v) k = some v := by
  induction d with
  | nil => simp [dictInsert, alookup]
  | cons p rest ih =>
    obtain ⟨k', v'⟩ := p
    by_cases h : k' = k <;> simp [dictInsert, alookup, h, ih]

theorem alookup_dictInsert_ne {α : Type} (d : List (Str × α)) (k k' : Str) (v : α)
    (h : k' ≠ k) : alookup (dictInsert d k v) k' = alookup d k' := by
  induction d with
  | nil => simp [dictInsert, alookup, Ne.symm h]
  | cons p rest ih =>
    obtain ⟨k₀, v₀⟩ := p
    by_cases h₀ : k₀ = k
    · subst h₀
      simp [dictInsert, alookup, Ne.symm h]
    · by_cases h₁ : k₀ = k'
      · subst h₁
        simp [dictInsert, alookup, h₀]
      · simp [dictInsert, alookup, h₀, h₁, ih]

theorem alookup_dictIncr (d : List (Str × Nat)) (k t : Str) :
    (alookup (dictIncr d k) t).getD 0 =
      (alookup d t).getD 0 + (if k = t then 1 else 0) := by
  induction d with
  | nil => by_cases h : k = t <;> simp [dictIncr, alookup, h]
  | cons p rest ih =>
    obtain ⟨k₀, n₀⟩ := p
    by_cases h₀ : k₀ = k
    · subst h₀
      by_cases h₁ : k₀ = t <;> simp [dictIncr, alookup, h₁, ih]
    · by_cases h₁ : k₀ = t
      · subst h₁
        simp [dictIncr, alookup, h₀, Ne.symm h₀]
      · simp [dictIncr, alookup, h₀, h₁, ih]

theorem sumCounts_dictIncr (d : List (Str × Nat)) (k : Str) :
    sumCounts (dictIncr d k) = sumCounts d + 1 := by
  induction d with
  | nil => simp [dictIncr, sumCounts]
  | cons p rest ih =>
    obtain ⟨k₀, n₀⟩ := p
    by_cases h : k₀ = k <;> simp [dictIncr, sumCounts, h] <;>
      simp [sumCounts] at ih <;> omega

theorem pySplit_ne_nil (sep : Char) (s : Str) : pySplit sep s ≠ [] := by
  cases s with
  | nil => simp [pySplit]
  | cons c rest =>
    simp only [pySplit]
    cases pySplit sep rest with
    | nil => simp
    | cons p ps => by_cases h : c = sep <;> simp [h]

theorem pySplit_of_not_mem (sep : Char) (s : Str) (h : sep ∉ s) :
    pySplit sep s = [s] := by
  induction s with
  | nil => rfl
  | cons c rest ih =>
    have hc : c ≠ sep := fun hcs => h (by simp [hcs])
    have hrest : sep ∉ rest := fun hm => h (List.mem_cons_of_mem _ hm)
    simp [pySplit, ih hrest, hc]

theorem sumCounts_foldl_dictIncr (names : List Str) :
    ∀ d : List (Str × Nat),
      sumCounts (names.foldl (fun d n => dictIncr d (tagOf n)) d) =
        sumCounts d + names.length := by
  induction names with
  | nil => intro d; simp
  | cons n ns ih =>
    intro d
    simp only [List.foldl_cons, ih, sumCounts_dictIncr, List.length_cons]
    omega

theorem alookup_foldl_dictIncr (names : List Str) (t : Str) :
    ∀ d : List (Str × Nat),
      (alookup (names.foldl (fun d n => dictIncr d (tagOf n)) d) t).getD 0 =
        (alookup d t).getD 0 + (names.filter (fun n => tagOf n == t)).length := by
  induction names with
  | nil => intro d; simp
  | cons n ns ih =>
    intro d
    simp only [List.foldl_cons, ih, alookup_dictIncr]
    by_cases h : tagOf n = t
    · simp [h, List.filter_cons]
      omega
    · simp [h, List.filter_cons]

/-- Claim C1, counterexample: with `total_reads == 0` (no mate-1 records seen)
`write_cb_summary` does *not* complete: the unguarded f-string division
`kept_reads / total_reads` raises `ZeroDivisionError`, modelled as `none`. -/
theorem claim_C1_counterexample : write_cb_summary [] 0 0 0 = none := rfl

/-- Claim C1 (amended): `write_cb_summary` completes exactly when at least one
mate-1 record was seen; for every input with `total_reads > 0` it reports the
accepted-to-seen ratio `kept_reads / total_reads`.  When `total_reads == 0`
the division is unguarded and the summary raises instead of reporting zero. -/
theorem claim_C1 (cbCount : List (Str × Nat)) (totalReads invalidCbReads missingR2 : Nat)
    (h : 0 < totalReads) :
    ∃ s, write_cb_summary cbCount totalReads invalidCbReads missingR2 = some s ∧
      s.validRatio = (sumCounts cbCount : ℚ) / (totalReads : ℚ) ∧
      s.keptReads = sumCounts cbCount ∧ s.totalReads = totalReads := by
  refine ⟨{ totalReads := totalReads, keptReads := sumCounts cbCount,
            validRatio := (sumCounts cbCount : ℚ) / (totalReads : ℚ),
            invalidCbReads := invalidCbReads, missingR2 := missingR2,
            cbTable := sortDescByCount cbCount }, ?_, rfl, rfl, rfl⟩
  simp [write_cb_summary, Nat.pos_iff_ne_zero.mp h]

/-- Witness for C1 at a concrete input. -/
theorem claim_C1_witness :
    0 < 3 ∧
      ∃ s, write_cb_summary [(("AAAA").toList, 2)] 3 1 0 = some s ∧
        s.validRatio = (sumCounts [(("AAAA").toList, 2)] : ℚ) / ((3 : ℕ) : ℚ) ∧
        s.keptReads = sumCounts [(("AAAA").toList, 2)] ∧ s.totalReads = 3 :=
  ⟨by decide, claim_C1 [(("AAAA").toList, 2)] 3 1 0 (by decide)⟩

/-- Claim C2: the `process_read1` loop body always counts the record as seen;
it rejects (counts the record invalid, leaves the index and the output
untouched) exactly when the sequence is shorter than `L_cb + L_umi` or the
extracted CB is not in the whitelist; and for every accepted record the
extracted CB has length `L_cb`, the extracted UMI has length `L_umi`, the CB
is in the whitelist, and the record is emitted and indexed. -/
theorem claim_C2 (cbList : List Str) (cbLen umiLen : Nat) (s : R1State) (r : FastqRec) :
    (read1Step cbList cbLen umiLen s r).totalReads = s.totalReads + 1 ∧
    (((read1Step cbList cbLen umiLen s r).invalidCbReads = s.invalidCbReads + 1 ∧
      (read1Step cbList cbLen umiLen s r).cbUmiDict = s.cbUmiDict ∧
      (read1Step cbList cbLen umiLen s r).out = s.out) ↔
      (r.seq.length < cbLen + umiLen ∨ r.seq.take cbLen ∉ cbList)) ∧
    (¬ r.seq.length < cbLen + umiLen → r.seq.take cbLen ∈ cbList →
      (r.seq.take cbLen).length = cbLen ∧
      ((r.seq.drop cbLen).take umiLen).length = umiLen ∧
      r.seq.take cbLen ∈ cbList ∧
      (read1Step cbList cbLen umiLen s r).out =
        s.out ++ [{ header := read1Header cbLen umiLen r, seq := r.seq,
                    qual := encodeQual r.phred }] ∧
      (read1Step cbList cbLen umiLen s r).cbUmiDict =
        dictInsert s.cbUmiDict r.id (read1Header cbLen umiLen r) ∧
      (read1Step cbList cbLen umiLen s r).invalidCbReads = s.invalidCbReads) := by
  by_cases hshort : r.seq.length < cbLen + umiLen
  · refine ⟨by simp [read1Step, hshort], ?_, fun h _ => absurd hshort h⟩
    simp [read1Step, hshort]
  · by_cases hwl : r.seq.take cbLen ∈ cbList
    · refine ⟨by simp [read1Step, hshort, hwl], ?_, fun _ _ => ?_⟩
      · constructor
        · rintro ⟨hinv, -, -⟩
          exact absurd hinv (by simp [read1Step, hshort, hwl])
        · rintro (h | h)
          · exact absurd h hshort
          · exact absurd hwl h
      · refine ⟨?_, ?_, hwl, ?_, ?_, ?_⟩
        · simp only [List.length_take]
          omega
        · simp only [List.length_take, List.length_drop]
          omega
        · simp [read1Step, hshort, hwl, read1Header]
        · simp [read1Step, hshort, hwl, read1Header]
        · simp [read1Step, hshort, hwl]
    · refine ⟨by simp [read1Step, hshort, hwl], ?_, fun _ h => absurd h hwl⟩
      constructor
      · rintro -
        exact Or.inr hwl
      · rintro -
        simp [read1Step, hshort, hwl]

/-- Witness for C2 at a concrete accepted record (`CB = "A"`, `UMI = "B"`). -/
theorem claim_C2_witness :
    (read1Step [("A").toList] 1 1 ⟨[], [], 0, 0, []⟩ ⟨("r").toList, ("AB").toList, [40, 41]⟩).totalReads
        = (R1State.totalReads ⟨[], [], 0, 0, []⟩) + 1 ∧
    (((read1Step [("A").toList] 1 1 ⟨[], [], 0, 0, []⟩ ⟨("r").toList, ("AB").toList, [40, 41]⟩).invalidCbReads
        = (R1State.invalidCbReads ⟨[], [], 0, 0, []⟩) + 1 ∧
      (read1Step [("A").toList] 1 1 ⟨[], [], 0, 0, []⟩ ⟨("r").toList, ("AB").toList, [40, 41]⟩).cbUmiDict
        = R1State.cbUmiDict ⟨[], [], 0, 0, []⟩ ∧
      (read1Step [("A").toList] 1 1 ⟨[], [], 0, 0, []⟩ ⟨("r").toList, ("AB").toList, [40, 41]⟩).out
        = R1State.out ⟨[], [], 0, 0, []⟩) ↔
      ((FastqRec.seq ⟨("r").toList, ("AB").toList, [40, 41]⟩).length < 1 + 1 ∨
        (FastqRec.seq ⟨("r").toList, ("AB").toList, [40, 41]⟩).take 1 ∉ [("A").toList])) ∧
    (¬ (FastqRec.seq ⟨("r").toList, ("AB").toList, [40, 41]⟩).length < 1 + 1 →
      (FastqRec.seq ⟨("r").toList, ("AB").toList, [40, 41]⟩).take 1 ∈ [("A").toList] →
      ((FastqRec.seq ⟨("r").toList, ("AB").toList, [40, 41]⟩).take 1).length = 1 ∧
      (((FastqRec.seq ⟨("r").toList, ("AB").toList, [40, 41]⟩).drop 1).take 1).length = 1 ∧
      (FastqRec.seq ⟨("r").toList, ("AB").toList, [40, 41]⟩).take 1 ∈ [("A").toList] ∧
      (read1Step [("A").toList] 1 1 ⟨[], [], 0, 0, []⟩ ⟨("r").toList, ("AB").toList, [40, 41]⟩).out
        = R1State.out ⟨[], [], 0, 0, []⟩ ++
          [{ header := read1Header 1 1 ⟨("r").toList, ("AB").toList, [40, 41]⟩,
             seq := FastqRec.seq ⟨("r").toList, ("AB").toList, [40, 41]⟩,
             qual := encodeQual (FastqRec.phred ⟨("r").toList, ("AB").toList, [40, 41]⟩) }] ∧
      (read1Step [("A").toList] 1 1 ⟨[], [], 0, 0, []⟩ ⟨("r").toList, ("AB").toList, [40, 41]⟩).cbUmiDict
        = dictInsert (R1State.cbUmiDict ⟨[], [], 0, 0, []⟩)
            (FastqRec.id ⟨("r").toList, ("AB").toList, [40, 41]⟩)
            (read1Header 1 1 ⟨("r").toList, ("AB").toList, [40, 41]⟩) ∧
      (read1Step [("A").toList] 1 1 ⟨[], [], 0, 0, []⟩ ⟨("r").toList, ("AB").toList, [40, 41]⟩).invalidCbReads
        = R1State.invalidCbReads ⟨[], [], 0, 0, []⟩) :=
  claim_C2 [("A").toList] 1 1 ⟨[], [], 0, 0, []⟩ ⟨("r").toList, ("AB").toList, [40, 41]⟩

/-- Claim C6: quality scores round-trip — any quality string accepted by the
offset-33 decode re-encodes (via `chr(q + 33)`) to the original ASCII string;
and both the mate-1 and the mate-2 output paths write exactly
`encodeQual record.phred` as the quality line of every record they emit. -/
theorem claim_C6 :
    (∀ (qual : Str) (qs : List Nat), decodeQual qual = some qs → encodeQual qs = qual) ∧
    (∀ (cbList : List Str) (cbLen umiLen : Nat) (s : R1State) (r : FastqRec) (o : OutRec),
      o ∈ (read1Step cbList cbLen umiLen s r).out →
        o ∈ s.out ∨ o.qual = encodeQual r.phred) ∧
    (∀ (d : List (Str × Str)) (s : R2State) (r : FastqRec) (o : Out2Rec),
      o ∈ (read2Step d s r).out → o ∈ s.out ∨ o.qual = encodeQual r.phred) := by
  refine ⟨?_, ?_, ?_⟩
  · intro qual
    induction qual with
    | nil => intro qs h; simp [decodeQual] at h; simp [← h, encodeQual]
    | cons c cs ih =>
      intro qs h
      simp only [decodeQual] at h
      cases hc : phredOfChar c with
      | none => rw [hc] at h; exact absurd h (by simp)
      | some q =>
        cases hcs : decodeQual cs with
        | none => rw [hc, hcs] at h; exact absurd h (by simp)
        | some qs' =>
          rw [hc, hcs] at h
          obtain rfl : q :: qs' = qs := by simpa using h
          simp only [phredOfChar] at hc
          split at hc
          · rename_i hrange
            obtain rfl : c.toNat - 33 = q := by simpa using hc
            simp only [encodeQual, List.map_cons]
            rw [Nat.sub_add_cancel hrange.1, Char.ofNat_toNat]
            have := ih qs' hcs
            simp only [encodeQual] at this
            rw [this]
          · exact absurd hc (by simp)
  · intro cbList cbLen umiLen s r o ho
    by_cases hshort : r.seq.length < cbLen + umiLen
    · simp [read1Step, hshort] at ho
      exact Or.inl ho
    · by_cases hwl : r.seq.take cbLen ∈ cbList
      · simp [read1Step, hshort, hwl] at ho
        rcases ho with ho | ho
        · exact Or.inl ho
        · right; rw [ho]
      · simp [read1Step, hshort, hwl] at ho
        exact Or.inl ho
  · intro d s r o ho
    cases hl : alookup d r.id with
    | none => simp [read2Step, hl] at ho; exact Or.inl ho
    | some h1 =>
      simp [read2Step, hl] at ho
      rcases ho with ho | ho
      · exact Or.inl ho
      · right; rw [ho]

/-- Witness for C6 at the concrete quality string `"I5"`. -/
theorem claim_C6_witness : encodeQual [40, 20] = ("I5").toList :=
  claim_C6.1 (("I5").toList) [40, 20] (by decide)

/-- Claim C9: the tag aggregator never skips a record — the reported total read
count is the number of records in the container — and an identity with no
underscore at all is counted under its whole identity. -/
theorem claim_C9 (names : List Str) (name : Str) (h : '_' ∉ name) :
    (umi_count_bam names).2.1 = names.length ∧ tagOf name = name := by
  constructor
  · have := sumCounts_foldl_dictIncr names []
    simpa [umi_count_bam, tagCountOf, sumCounts] using this
  · simp [tagOf, pySplit_of_not_mem '_' name h]

/-- Witness for C9 at a concrete container and a concrete underscore-free
identity. -/
theorem claim_C9_witness :
    '_' ∉ ("abc").toList ∧
      ((umi_count_bam [("a_u_1_R1").toList, ("abc").toList]).2.1 =
          [("a_u_1_R1").toList, ("abc").toList].length ∧
        tagOf (("abc").toList) = ("abc").toList) :=
  ⟨by decide, claim_C9 [("a_u_1_R1").toList, ("abc").toList] (("abc").toList) (by decide)⟩

/-- Claim C10: an identity with at least 4 underscore-separated fields whose
first field is empty is *not* unroutable: the extracted CB is the empty
string and the record is routed to the partition `<basename>_.sam` (empty
filename suffix), with the header block written before it. -/
theorem claim_C10 (name : Str) (h4 : 4 ≤ (pySplit '_' name).length)
    (hempty : (pySplit '_' name).headD [] = []) :
    extract_cb_from_read_name name = some [] ∧
    ∀ headerText basename line,
      (routerRun headerText basename [⟨name, line⟩]).skipped = 0 ∧
      alookup (routerRun headerText basename [⟨name, line⟩]).files
          ((outputDir ++ basename ++ ['_']) ++ samExt) = some [headerText, line] := by
  have hex : extract_cb_from_read_name name = some [] := by
    simp only [extract_cb_from_read_name]
    rw [if_neg (by omega), hempty]
  refine ⟨hex, fun headerText basename line => ?_⟩
  constructor
  · simp [routerRun, routerStep, hex]
  · simp only [routerRun, List.foldl_cons, List.foldl_nil, routerStep, hex]
    have hpath : outPath basename [] = (outputDir ++ basename ++ ['_']) ++ samExt := rfl
    simp [hpath, dictInsert]

/-- Invariant of the `process_read2` loop: output size plus the missing-mate
counter grows by exactly the number of records processed, and every output
record either pre-existed or has an identity present in the index. -/
theorem read2_foldl_inv (cbUmiDict : List (Str × Str)) (rs : List FastqRec) :
    ∀ s : R2State,
      ((rs.foldl (read2Step cbUmiDict) s).out.length +
          (rs.foldl (read2Step cbUmiDict) s).missingR2 =
        s.out.length + s.missingR2 + rs.length) ∧
      (∀ o ∈ (rs.foldl (read2Step cbUmiDict) s).out,
        o ∈ s.out ∨ (alookup cbUmiDict o.id).isSome = true) := by
  induction rs with
  | nil => intro s; exact ⟨by simp, fun o ho => Or.inl ho⟩
  | cons r rest ih =>
    intro s
    cases hl : alookup cbUmiDict r.id with
    | none =>
      have hout : (read2Step cbUmiDict s r).out = s.out := by simp [read2Step, hl]
      have hmiss : (read2Step cbUmiDict s r).missingR2 = s.missingR2 + 1 := by
        simp [read2Step, hl]
      constructor
      · have hsum := (ih (read2Step cbUmiDict s r)).1
        rw [hout, hmiss] at hsum
        simp only [List.foldl_cons, hsum, List.length_cons]
        omega
      · intro o ho
        have hm := (ih (read2Step cbUmiDict s r)).2 o (by simpa [List.foldl_cons] using ho)
        rw [hout] at hm
        exact hm
    | some h1 =>
      have hout : (read2Step cbUmiDict s r).out =
          s.out ++ [{ id := r.id, header := pyReplace h1 marker1 marker2,
                      seq := r.seq, qual := encodeQual r.phred }] := by
        simp [read2Step, hl]
      have hmiss : (read2Step cbUmiDict s r).missingR2 = s.missingR2 := by
        simp [read2Step, hl]
      constructor
      · have hsum := (ih (read2Step cbUmiDict s r)).1
        rw [hout, hmiss] at hsum
        simp only [List.foldl_cons, hsum, List.length_append, List.length_cons,
          List.length_nil]
        omega
      · intro o ho
        have hm := (ih (read2Step cbUmiDict s r)).2 o (by simpa [List.foldl_cons] using ho)
        rw [hout] at hm
        rcases hm with hmem | hsome
        · rcases List.mem_append.mp hmem with hmem | hmem
          · exact Or.inl hmem
          · right
            have heq : o = { id := r.id, header := pyReplace h1 marker1 marker2,
                             seq := r.seq, qual := encodeQual r.phred } := by
              simpa using hmem
            rw [heq]
            simp [hl]
        · exact Or.inr hsome

/-- Claim C4: every record emitted by `process_read2` has an identity that is a
key of the Identity→Header index, and emitted records plus missing-mate drops
account for every mate-2 record seen. -/
theorem claim_C4 (cbUmiDict : List (Str × Str)) (rs : List FastqRec) :
    (∀ o ∈ (process_read2 cbUmiDict rs).out, (alookup cbUmiDict o.id).isSome = true) ∧
    (process_read2 cbUmiDict rs).out.length + (process_read2 cbUmiDict rs).missingR2 =
      rs.length := by
  have h := read2_foldl_inv cbUmiDict rs ⟨[], 0⟩
  refine ⟨fun o ho => ?_, by simpa using h.1⟩
  rcases h.2 o ho with hmem | hsome
  · exact absurd hmem (by simp)
  · exact hsome

/-- Witness for C4: a two-record mate-2 stream against a one-entry index —
one record matches, one is missing. -/
theorem claim_C4_witness :
    (∀ o ∈ (process_read2 [(("r1").toList, ("h").toList)]
        [⟨("r1").toList, ("AC").toList, [40, 41]⟩,
         ⟨("r7").toList, ("GG").toList, [30, 30]⟩]).out,
      (alookup [(("r1").toList, ("h").toList)] o.id).isSome = true) ∧
    (process_read2 [(("r1").toList, ("h").toList)]
        [⟨("r1").toList, ("AC").toList, [40, 41]⟩,
         ⟨("r7").toList, ("GG").toList, [30, 30]⟩]).out.length +
      (process_read2 [(("r1").toList, ("h").toList)]
          [⟨("r1").toList, ("AC").toList, [40, 41]⟩,
           ⟨("r7").toList, ("GG").toList, [30, 30]⟩]).missingR2 =
      [⟨("r1").toList, ("AC").toList, [40, 41]⟩,
       (⟨("r7").toList, ("GG").toList, [30, 30]⟩ : FastqRec)].length :=
  claim_C4 [(("r1").toList, ("h").toList)]
    [⟨("r1").toList, ("AC").toList, [40, 41]⟩, ⟨("r7").toList, ("GG").toList, [30, 30]⟩]

/-- Claim C8: the tag aggregator's count table maps each tag to the number of
records whose identity carries it as last underscore-separated field, the
reported total equals the sum of the per-tag counts, and on a container whose
identities end in `R1, R1, R2` the table is exactly `[(R1, 2), (R2, 1)]` with
total `3`. -/
theorem claim_C8 (names : List Str) (t : Str) :
    (alookup (umi_count_bam names).2.2 t).getD 0 =
      (names.filter (fun n => tagOf n == t)).length ∧
    (umi_count_bam names).2.1 = sumCounts (umi_count_bam names).2.2 ∧
    umi_count_bam [("a_u_1_R1").toList, ("b_u_2_R1").toList, ("c_u_3_R2").toList] =
      (2, 3, [(("R1").toList, 2), (("R2").toList, 1)]) := by
  refine ⟨?_, rfl, by decide⟩
  have := alookup_foldl_dictIncr names t []
  simpa [umi_count_bam, tagCountOf] using this

/-- The index update performed by one `process_read1` iteration: an accepted
record overwrites (or creates) the entry for its identity, a rejected record
leaves the index unchanged. -/
theorem read1Step_cbUmiDict (cbList : List Str) (cbLen umiLen : Nat) (s : R1State)
    (r : FastqRec) :
    (read1Step cbList cbLen umiLen s r).cbUmiDict =
      if read1Accepts cbList cbLen umiLen r then
        dictInsert s.cbUmiDict r.id (read1Header cbLen umiLen r)
      else s.cbUmiDict := by
  by_cases hshort : r.seq.length < cbLen + umiLen
  · simp [read1Step, read1Accepts, hshort]
  · by_cases hwl : r.seq.take cbLen ∈ cbList
    · simp [read1Step, read1Accepts, read1Header, hshort, hwl]
    · simp [read1Step, read1Accepts, hshort, hwl]

/-- Index contents after folding `process_read1` over a stream, relative to an
arbitrary starting state: the entry for `i` is the header of the last accepted
occurrence of identity `i`, or the starting entry when there is none. -/
theorem alookup_read1_foldl (cbList : List Str) (cbLen umiLen : Nat) (rs : List FastqRec) :
    ∀ (s : R1State) (i : Str),
      alookup (rs.foldl (read1Step cbList cbLen umiLen) s).cbUmiDict i =
        match (rs.filter
            (fun r => read1Accepts cbList cbLen umiLen r && (r.id == i))).getLast? with
        | some r => some (read1Header cbLen umiLen r)
        | none => alookup s.cbUmiDict i := by
  induction rs with
  | nil => intro s i; simp
  | cons r rest ih =>
    intro s i
    simp only [List.foldl_cons, List.filter_cons]
    by_cases hp : (read1Accepts cbList cbLen umiLen r && (r.id == i)) = true
    · obtain ⟨hacc, hid⟩ : read1Accepts cbList cbLen umiLen r = true ∧ r.id = i := by
        simpa using hp
      rw [if_pos hp, ih]
      cases hrest : (rest.filter
          (fun r => read1Accepts cbList cbLen umiLen r && (r.id == i))).getLast? with
      | some r' =>
        obtain ⟨l, hl⟩ : ∃ l, rest.filter
            (fun r => read1Accepts cbList cbLen umiLen r && (r.id == i)) = l :=
          ⟨_, rfl⟩
        rw [hl] at hrest
        cases l with
        | nil => simp at hrest
        | cons a l' =>
          rw [hl, List.getLast?_cons_cons, hrest]
      | none =>
        have hnil : rest.filter
            (fun r => read1Accepts cbList cbLen umiLen r && (r.id == i)) = [] := by
          cases hfil : rest.filter
              (fun r => read1Accepts cbList cbLen umiLen r && (r.id == i)) with
          | nil => rfl
          | cons a l' => rw [hfil] at hrest; simp [List.getLast?_cons_cons] at hrest
        rw [hnil]
        simp only [List.getLast?_singleton]
        rw [read1Step_cbUmiDict, if_pos hacc, hid, alookup_dictInsert_self]
    · rw [if_neg hp, ih]
      have hdict : alookup (read1Step cbList cbLen umiLen s r).cbUmiDict i =
          alookup s.cbUmiDict i := by
        rw [read1Step_cbUmiDict]
        by_cases hacc : read1Accepts cbList cbLen umiLen r = true
        · rw [if_pos hacc]
          have hid : r.id ≠ i := by
            intro hid
            exact hp (by simp [hacc, hid])
          exact alookup_dictInsert_ne _ _ _ _ (Ne.symm hid)
        · rw [if_neg hacc]
      rw [hdict]

theorem pyReplaceFuel_nil (n : Nat) : pyReplaceFuel marker1 marker2 n [] = [] := by
  cases n <;> rfl

theorem listStartsWith_marker1_of_ne (c : Char) (l : Str) (hc : c ≠ ' ') :
    listStartsWith marker1 (c :: l) = false := by
  have hm : marker1 = ' ' :: ['1', ':', 'N', ':', '0', ':'] := rfl
  rw [hm]
  simp [listStartsWith, Ne.symm hc]

theorem noSpace_cons (c : Char) (l : Str) (hc : c ≠ ' ') (hl : noSpace l) :
    noSpace (c :: l) := by
  intro x hx
  rcases List.mem_cons.mp hx with rfl | hx
  · exact hc
  · exact hl x hx

theorem noSpace_append (a b : Str) (ha : noSpace a) (hb : noSpace b) :
    noSpace (a ++ b) := by
  intro x hx
  rcases List.mem_append.mp hx with hx | hx
  · exact ha x hx
  · exact hb x hx

/-- Scanning a space-free block never matches the marker: the replacement
scan copies it verbatim and continues on the remainder with the leftover
fuel. -/
theorem pyReplaceFuel_no_space (s t : Str) (n : Nat) (h : noSpace s) :
    pyReplaceFuel marker1 marker2 (s.length + n) (s ++ t) =
      s ++ pyReplaceFuel marker1 marker2 n t := by
  induction s with
  | nil => simp
  | cons c cs ih =>
    have hc : c ≠ ' ' := h c (by simp)
    have hcs : noSpace cs := fun x hx => h x (by simp [hx])
    have hfuel : (c :: cs).length + n = (cs.length + n) + 1 := by
      rw [List.length_cons]; omega
    rw [hfuel, List.cons_append]
    simp only [pyReplaceFuel, listStartsWith_marker1_of_ne c (cs ++ t) hc,
      Bool.false_eq_true, if_false, ih hcs, List.cons_append]

/-- A space-free string (with enough fuel) is left unchanged by the scan. -/
theorem pyReplaceFuel_eq_self_of_no_space (s : Str) (n : Nat) (h : noSpace s)
    (hn : s.length ≤ n) : pyReplaceFuel marker1 marker2 n s = s := by
  obtain ⟨k, rfl⟩ : ∃ k, n = s.length + k := ⟨n - s.length, by omega⟩
  have h2 := pyReplaceFuel_no_space s [] k h
  simpa [pyReplaceFuel_nil] using h2

/-- When identity, CB and UMI are space-free, replacing `" 1:N:0:"` by
`" 2:N:0:"` in the encoded mate-1 header substitutes exactly the constructed
marker and copies every field verbatim. -/
theorem pyReplace_mkHeader (id cb umi : Str) (hid : noSpace id) (hcb : noSpace cb)
    (humi : noSpace umi) :
    pyReplace (mkHeader id cb umi) marker1 marker2 =
      '@' :: (id ++ '_' :: (cb ++ '_' :: (umi ++ marker2 ++ umi))) := by
  have hA : mkHeader id cb umi =
      ('@' :: (id ++ '_' :: (cb ++ '_' :: umi))) ++ (marker1 ++ umi) := by
    simp [mkHeader, List.append_assoc]
  have hnsA : noSpace ('@' :: (id ++ '_' :: (cb ++ '_' :: umi))) := by
    refine noSpace_cons _ _ (by decide) ?_
    refine noSpace_append _ _ hid ?_
    refine noSpace_cons _ _ (by decide) ?_
    refine noSpace_append _ _ hcb ?_
    exact noSpace_cons _ _ (by decide) humi
  rw [pyReplace, hA]
  have hlen : (('@' :: (id ++ '_' :: (cb ++ '_' :: umi))) ++ (marker1 ++ umi)).length
      = ('@' :: (id ++ '_' :: (cb ++ '_' :: umi))).length + (7 + umi.length) := by
    have hm7 : marker1.length = 7 := rfl
    simp [List.length_append, hm7]
    omega
  rw [hlen, pyReplaceFuel_no_space _ _ _ hnsA]
  have hstep : pyReplaceFuel marker1 marker2 (7 + umi.length) (marker1 ++ umi) =
      marker2 ++ umi := by
    have h7 : (7 : Nat) + umi.length = (6 + umi.length) + 1 := by omega
    have hm : marker1 ++ umi = ' ' :: (['1', ':', 'N', ':', '0', ':'] ++ umi) := rfl
    rw [h7, hm]
    have hsw : listStartsWith marker1 (' ' :: (['1', ':', 'N', ':', '0', ':'] ++ umi)) =
        true := by
      have hm1 : marker1 = ' ' :: ['1', ':', 'N', ':', '0', ':'] := rfl
      rw [hm1]
      simp [listStartsWith]
    simp only [pyReplaceFuel, hsw, if_true]
    have hdrop : List.drop (marker1.length - 1) (['1', ':', 'N', ':', '0', ':'] ++ umi) =
        umi := by
      have h6 : marker1.length - 1 = 6 := rfl
      rw [h6]
      exact List.drop_left ['1', ':', 'N', ':', '0', ':'] umi
    rw [hdrop, pyReplaceFuel_eq_self_of_no_space umi _ humi (by omega)]
  rw [hstep]
  simp [List.append_assoc]

/-- Boundary of the marker substitution: `str.replace` rewrites *every*
occurrence of `" 1:N:0:"`, so for a hypothetical UMI equal to the marker
itself the result would differ from substituting only the constructed marker.
Such fields cannot occur in this pipeline: the marker starts with a space,
the FASTQ parser feeding `process_read1` rejects any sequence containing
whitespace, and a record identity is the first whitespace-delimited token of
its title line — hence the space-free hypotheses of `pyReplace_mkHeader` hold
for every record the program processes. -/
theorem pyReplace_all_occurrences_boundary :
    pyReplace (mkHeader (("r").toList) (("A").toList) marker1) marker1 marker2 ≠
      '@' :: ((("r").toList) ++ '_' ::
        ((("A").toList) ++ '_' :: (marker1 ++ marker2 ++ marker1))) := by
  decide

/-- Claim C3: every mate-1 header is emitted in the grammar
`@<identity>_<CB>_<UMI> 1:N:0:<UMI>` with mate tag `1`; the mate-2 record
emitted for a matched identity carries the indexed header with the first-mate
marker `" 1:N:0:"` replaced by `" 2:N:0:"`, together with the record's
original sequence and quality; and — since identity, CB and UMI contain no
space character (the FASTQ parser rejects whitespace in sequences, and an
identity is a whitespace-free token) — the replacement substitutes exactly
the single constructed marker, copying identity, CB and UMI verbatim. -/
theorem claim_C3 :
    (∀ id cb umi : Str, mkHeader id cb umi =
        '@' :: (id ++ '_' :: (cb ++ '_' :: (umi ++ marker1 ++ umi)))) ∧
    (∀ (d : List (Str × Str)) (s : R2State) (r : FastqRec) (h1 : Str),
      alookup d r.id = some h1 →
        (read2Step d s r).out = s.out ++
          [{ id := r.id, header := pyReplace h1 marker1 marker2,
             seq := r.seq, qual := encodeQual r.phred }]) ∧
    (∀ id cb umi : Str, noSpace id → noSpace cb → noSpace umi →
      pyReplace (mkHeader id cb umi) marker1 marker2 =
        '@' :: (id ++ '_' :: (cb ++ '_' :: (umi ++ marker2 ++ umi)))) := by
  refine ⟨fun id cb umi => rfl, fun d s r h1 hl => by simp [read2Step, hl],
    pyReplace_mkHeader⟩

/-- Witness for C3 at a concrete space-free record
(`identity = "r"`, `CB = "AAAA"`, `UMI = "TT"`). -/
theorem claim_C3_witness :
    pyReplace (mkHeader (("r").toList) (("AAAA").toList) (("TT").toList))
        marker1 marker2 =
      '@' :: ((("r").toList) ++ '_' ::
        ((("AAAA").toList) ++ '_' :: ((("TT").toList) ++ marker2 ++ ("TT").toList))) :=
  claim_C3.2.2 (("r").toList) (("AAAA").toList) (("TT").toList)
    (by decide) (by decide) (by decide)

/-- Claim C7: after `process_read1`, the Identity→Header index entry for any
identity is the encoded header of the *last* accepted occurrence of that
identity in the mate-1 stream — later duplicates overwrite earlier ones —
and is absent when no accepted occurrence exists. -/
theorem claim_C7 (cbList : List Str) (cbLen umiLen : Nat) (rs : List FastqRec) (i : Str) :
    alookup (process_read1 cbList cbLen umiLen rs).cbUmiDict i =
      ((rs.filter
          (fun r => read1Accepts cbList cbLen umiLen r && (r.id == i))).getLast?).map
        (read1Header cbLen umiLen) := by
  have h := alookup_read1_foldl cbList cbLen umiLen rs ⟨[], [], 0, 0, []⟩ i
  rw [process_read1, h]
  cases (rs.filter (fun r => read1Accepts cbList cbLen umiLen r && (r.id == i))).getLast? <;>
    simp

theorem extract_cb_eq_none_iff (name : Str) :
    extract_cb_from_read_name name = none ↔ (pySplit '_' name).length < 4 := by
  by_cases h : (pySplit '_' name).length < 4 <;> simp [extract_cb_from_read_name, h]

theorem extract_cb_not_lt_of_some (name cb : Str)
    (h : extract_cb_from_read_name name = some cb) :
    ¬ (pySplit '_' name).length < 4 := by
  intro hlt
  simp [extract_cb_from_read_name, hlt] at h

theorem outPath_injective (basename cb₁ cb₂ : Str)
    (h : outPath basename cb₁ = outPath basename cb₂) : cb₁ = cb₂ := by
  unfold outPath at h
  exact List.append_cancel_right (List.append_cancel_left h)

theorem alookup_appendFile_self (fs : List (Str × List Str)) (p : Str) (chunk : Str) :
    alookup (appendFile fs p chunk) p = some ((alookup fs p).getD [] ++ [chunk]) := by
  induction fs with
  | nil => simp [appendFile, alookup]
  | cons q rest ih =>
    obtain ⟨p', c⟩ := q
    by_cases h : p' = p
    · subst h
      simp [appendFile, alookup]
    · simp [appendFile, alookup, h, ih]

theorem alookup_appendFile_ne (fs : List (Str × List Str)) (p p' : Str) (chunk : Str)
    (h : p' ≠ p) : alookup (appendFile fs p chunk) p' = alookup fs p' := by
  induction fs with
  | nil => simp [appendFile, alookup, Ne.symm h]
  | cons q rest ih =>
    obtain ⟨p₀, c⟩ := q
    by_cases h₀ : p₀ = p
    · subst h₀
      simp [appendFile, alookup, Ne.symm h]
    · by_cases h₁ : p₀ = p'
      · subst h₁
        simp [appendFile, alookup, h₀]
      · simp [appendFile, alookup, h₀, h₁, ih]

theorem routedTo_cons (cb : Str) (r : AlnRead) (rs : List AlnRead) :
    routedTo cb (r :: rs) =
      if extract_cb_from_read_name r.name = some cb then r :: routedTo cb rs
      else routedTo cb rs := by
  by_cases h : extract_cb_from_read_name r.name = some cb <;>
    simp [routedTo, List.filter_cons, h]

/-- The router's loop invariant, relative to an arbitrary starting state:
skip count, written-CB set, and per-partition file contents after folding the
loop over a stream. -/
theorem routerRun_foldl_inv (headerText basename : Str) (rs : List AlnRead) :
    ∀ (s : RouterState) (cb : Str),
      ((rs.foldl (routerStep headerText basename) s).skipped =
        s.skipped +
          (rs.filter (fun r => decide ((pySplit '_' r.name).length < 4))).length) ∧
      ((cb ∈ (rs.foldl (routerStep headerText basename) s).writtenCbs) ↔
        (cb ∈ s.writtenCbs ∨ routedTo cb rs ≠ [])) ∧
      (alookup (rs.foldl (routerStep headerText basename) s).files (outPath basename cb) =
        if routedTo cb rs = [] then alookup s.files (outPath basename cb)
        else if cb ∈ s.writtenCbs then
          some ((alookup s.files (outPath basename cb)).getD [] ++
            (routedTo cb rs).map AlnRead.line)
        else some (headerText :: (routedTo cb rs).map AlnRead.line)) := by
  induction rs with
  | nil =>
    intro s cb
    exact ⟨by simp, by simp [routedTo], by simp [routedTo]⟩
  | cons r rest ih =>
    intro s cb
    cases hex : extract_cb_from_read_name r.name with
    | none =>
      have hlt : (pySplit '_' r.name).length < 4 := (extract_cb_eq_none_iff r.name).mp hex
      have hstep : routerStep headerText basename s r =
          { s with skipped := s.skipped + 1 } := by
        simp [routerStep, hex]
      have hrt : routedTo cb (r :: rest) = routedTo cb rest := by
        rw [routedTo_cons, if_neg (by simp [hex])]
      refine ⟨?_, ?_, ?_⟩
      · have h1 := (ih ({ s with skipped := s.skipped + 1 }) cb).1
        have hfil : List.filter (fun r => decide ((pySplit '_' r.name).length < 4))
            (r :: rest) =
            r :: List.filter (fun r => decide ((pySplit '_' r.name).length < 4)) rest := by
          simp [List.filter_cons, hlt]
        simp only [List.foldl_cons, hstep, h1, hfil, List.length_cons]
        omega
      · have h2 := (ih ({ s with skipped := s.skipped + 1 }) cb).2.1
        simp only [List.foldl_cons, hstep, hrt]
        exact h2
      · have h3 := (ih ({ s with skipped := s.skipped + 1 }) cb).2.2
        simp only [List.foldl_cons, hstep, hrt]
        exact h3
    | some cb0 =>
      have hnlt : ¬ (pySplit '_' r.name).length < 4 :=
        extract_cb_not_lt_of_some r.name cb0 hex
      by_cases hw : cb0 ∈ s.writtenCbs
      · have hstep : routerStep headerText basename s r =
            { s with files := appendFile s.files (outPath basename cb0) r.line } := by
          simp [routerStep, hex, hw]
        refine ⟨?_, ?_, ?_⟩
        · have h1 := (ih ({ s with
              files := appendFile s.files (outPath basename cb0) r.line }) cb).1
          have hfil : List.filter (fun r => decide ((pySplit '_' r.name).length < 4))
              (r :: rest) =
              List.filter (fun r => decide ((pySplit '_' r.name).length < 4)) rest := by
            simp [List.filter_cons, hnlt]
          simp only [List.foldl_cons, hstep, h1, hfil]
        · have h2 := (ih ({ s with
              files := appendFile s.files (outPath basename cb0) r.line }) cb).2.1
          by_cases hcb : cb = cb0
          · subst hcb
            have hrt : routedTo cb (r :: rest) = r :: routedTo cb rest := by
              rw [routedTo_cons, if_pos hex]
            simp only [List.foldl_cons, hstep, hrt]
            rw [h2]
            simp [hw]
          · have hrt : routedTo cb (r :: rest) = routedTo cb rest := by
              rw [routedTo_cons, if_neg (by simp [hex]; exact fun h => hcb h.symm)]
            simp only [List.foldl_cons, hstep, hrt]
            exact h2
        · have h3 := (ih ({ s with
              files := appendFile s.files (outPath basename cb0) r.line }) cb).2.2
          by_cases hcb : cb = cb0
          · subst hcb
            have hrt : routedTo cb (r :: rest) = r :: routedTo cb rest := by
              rw [routedTo_cons, if_pos hex]
            have happ : alookup (appendFile s.files (outPath basename cb) r.line)
                (outPath basename cb) =
                some ((alookup s.files (outPath basename cb)).getD [] ++ [r.line]) :=
              alookup_appendFile_self s.files (outPath basename cb) r.line
            simp only [List.foldl_cons, hstep, hrt]
            rw [h3]
            by_cases hrest : routedTo cb rest = []
            · simp [hrest, happ, hw]
            · simp [hrest, happ, hw, List.map_cons]
          · have hrt : routedTo cb (r :: rest) = routedTo cb rest := by
              rw [routedTo_cons, if_neg (by simp [hex]; exact fun h => hcb h.symm)]
            have hne : outPath basename cb ≠ outPath basename cb0 :=
              fun h => hcb (outPath_injective basename cb cb0 h)
            have happ : alookup (appendFile s.files (outPath basename cb0) r.line)
                (outPath basename cb) = alookup s.files (outPath basename cb) :=
              alookup_appendFile_ne s.files (outPath basename cb0)
                (outPath basename cb) r.line hne
            simp only [List.foldl_cons, hstep, hrt]
            rw [h3, happ]
      · have hstep : routerStep headerText basename s r =
            { writtenCbs := cb0 :: s.writtenCbs
              files := dictInsert s.files (outPath basename cb0) [headerText, r.line]
              skipped := s.skipped } := by
          simp [routerStep, hex, hw]
        refine ⟨?_, ?_, ?_⟩
        · have h1 := (ih (RouterState.mk (cb0 :: s.writtenCbs)
              (dictInsert s.files (outPath basename cb0) [headerText, r.line])
              s.skipped) cb).1
          have hfil : List.filter (fun r => decide ((pySplit '_' r.name).length < 4))
              (r :: rest) =
              List.filter (fun r => decide ((pySplit '_' r.name).length < 4)) rest := by
            simp [List.filter_cons, hnlt]
          simp only [List.foldl_cons, hstep, h1, hfil]
        · have h2 := (ih (RouterState.mk (cb0 :: s.writtenCbs)
              (dictInsert s.files (outPath basename cb0) [headerText, r.line])
              s.skipped) cb).2.1
          by_cases hcb : cb = cb0
          · subst hcb
            have hrt : routedTo cb (r :: rest) = r :: routedTo cb rest := by
              rw [routedTo_cons, if_pos hex]
            simp only [List.foldl_cons, hstep, hrt]
            rw [h2]
            simp
          · have hrt : routedTo cb (r :: rest) = routedTo cb rest := by
              rw [routedTo_cons, if_neg (by simp [hex]; exact fun h => hcb h.symm)]
            simp only [List.foldl_cons, hstep, hrt]
            rw [h2]
            simp [List.mem_cons, hcb]
        · have h3 := (ih (RouterState.mk (cb0 :: s.writtenCbs)
              (dictInsert s.files (outPath basename cb0) [headerText, r.line])
              s.skipped) cb).2.2
          by_cases hcb : cb = cb0
          · subst hcb
            have hrt : routedTo cb (r :: rest) = r :: routedTo cb rest := by
              rw [routedTo_cons, if_pos hex]
            have hins : alookup
                (dictInsert s.files (outPath basename cb) [headerText, r.line])
                (outPath basename cb) = some [headerText, r.line] :=
              alookup_dictInsert_self s.files (outPath basename cb) [headerText, r.line]
            simp only [List.foldl_cons, hstep, hrt]
            rw [h3]
            by_cases hrest : routedTo cb rest = []
            · simp [hrest, hins, hw]
            · simp [hrest, hins, List.map_cons, hw]
          · have hrt : routedTo cb (r :: rest) = routedTo cb rest := by
              rw [routedTo_cons, if_neg (by simp [hex]; exact fun h => hcb h.symm)]
            have hne : outPath basename cb ≠ outPath basename cb0 :=
              fun h => hcb (outPath_injective basename cb cb0 h)
            have hins : alookup
                (dictInsert s.files (outPath basename cb0) [headerText, r.line])
                (outPath basename cb) = alookup s.files (outPath basename cb) :=
              alookup_dictInsert_ne s.files (outPath basename cb0)
                (outPath basename cb) [headerText, r.line] hne
            simp only [List.foldl_cons, hstep, hrt]
            rw [h3, hins]
            simp [List.mem_cons, hcb]

/-- Claim C5: the router skips exactly the records whose identity splits into
fewer than 4 underscore-separated fields; a partition exists for `cb` exactly
when some record routes to it; the partition for `cb` (whose filename suffix
after `<dir><basename>_` is `<cb>.sam`) holds the source header block first,
written exactly once, followed by exactly the records routed to `cb` in
input order. -/
theorem claim_C5 (headerText basename : Str) (rs : List AlnRead) (cb : Str) :
    (routerRun headerText basename rs).skipped =
      (rs.filter (fun r => decide ((pySplit '_' r.name).length < 4))).length ∧
    (cb ∈ (routerRun headerText basename rs).writtenCbs ↔ routedTo cb rs ≠ []) ∧
    alookup (routerRun headerText basename rs).files (outPath basename cb) =
      (if routedTo cb rs = [] then none
       else some (headerText :: (routedTo cb rs).map AlnRead.line)) ∧
    (outPath basename cb).drop (outputDir.length + basename.length + 1) = cb ++ samExt := by
  have h := routerRun_foldl_inv headerText basename rs ⟨[], [], 0⟩ cb
  refine ⟨by simpa [routerRun] using h.1, by simpa [routerRun] using h.2.1, ?_, ?_⟩
  · have h3 := h.2.2
    simp only [routerRun]
    rw [h3]
    by_cases hrt : routedTo cb rs = [] <;> simp [hrt, alookup]
  · have hlen : (outputDir ++ basename ++ ['_']).length =
        outputDir.length + basename.length + 1 := by
      simp
      omega
    rw [outPath, ← hlen]
    exact List.drop_left (outputDir ++ basename ++ ['_']) (cb ++ samExt)

/-- Witness for C10 at the concrete read name `"_A_B_C"`. -/
theorem claim_C10_witness :
    4 ≤ (pySplit '_' (("_A_B_C").toList)).length ∧
      (pySplit '_' (("_A_B_C").toList)).headD [] = [] ∧
      (extract_cb_from_read_name (("_A_B_C").toList) = some [] ∧
        ∀ headerText basename line,
          (routerRun headerText basename [⟨("_A_B_C").toList, line⟩]).skipped = 0 ∧
          alookup (routerRun headerText basename [⟨("_A_B_C").toList, line⟩]).files
              ((outputDir ++ basename ++ ['_']) ++ samExt) = some [headerText, line]) :=
  ⟨by decide, by decide, claim_C10 (("_A_B_C").toList) (by decide) (by decide)⟩

end ScEMseq
